import Mathlib

/-!
Verification of `spriterecolour` (package `recolour`, file `generate.go`).

The Go source is shallowly embedded below.  Conventions of the embedding:

* A source colour sample (Go `color.Color`, accessed only through its
  `RGBA()` method) is a quadruple of alpha-premultiplied 16-bit channel
  values; we model it as a structure of four naturals (`Sample`).
* An 8-bit colour (Go `color.RGBA`) is the structure `RGBA8`.
* Go float64 arithmetic used for the `(float64(r) / 65535.0) * 255.0`
  channel scaling is modelled exactly by natural division `r * 255 / 65535`:
  for `r ≤ 65535` the float computation is exact whenever the true value is
  an integer and has error far below `1/65535` otherwise, so truncation to
  `uint8` agrees with the exact rational truncation.
* The HSV components compared by the sort are modelled as rationals; the
  comparator only performs subtractions and comparisons, which float64
  performs exactly enough for the comparator structure studied here.
* Go `int` is modelled as `ℤ`; `>>` on `int` is an arithmetic shift,
  modelled as flooring division by a power of two, and `|` is two's
  complement bitwise or, modelled by `Int.lor`.
* `uint16` indices are modelled as `ℕ`; the capacity check guarantees they
  stay below 65536 wherever the pipeline uses them.
* File writes are external collaborators; the embedding returns the buffers
  that the code would hand to them (`GenOutput`), and an `Except` error
  models the early error return, which happens before any buffer is built.
-/

/-- A premultiplied 16-bit-per-channel colour sample, the result of Go
`color.Color.RGBA()` (each field conceptually in `[0, 65535]`). -/
structure Sample where
  r : ℕ
  g : ℕ
  b : ℕ
  a : ℕ
deriving DecidableEq

/-- An 8-bit RGBA colour, Go `color.RGBA`. -/
structure RGBA8 where
  r : ℕ
  g : ℕ
  b : ℕ
  a : ℕ
deriving DecidableEq

/-- Exact model of Go `uint8((float64(v) / 65535.0) * 255.0)` for a 16-bit
channel value `v` (truncation toward zero). -/
def scale8 (v : ℕ) : ℕ := v * 255 / 65535

/-- Model of `colourTo8BitRGBA` (generate.go:58-69): scale each premultiplied
16-bit channel to 8 bits, preserving premultiplication if present. -/
def colourTo8BitRGBA (c : Sample) : RGBA8 :=
  ⟨scale8 c.r, scale8 c.g, scale8 c.b, scale8 c.a⟩

/-- Model of `colourTo8BitPaletteRGBA` (generate.go:71-76): like
`colourTo8BitRGBA` but with the alpha channel forced to 255, because palette
entries must be solid. -/
def colourTo8BitPaletteRGBA (c : Sample) : RGBA8 :=
  { colourTo8BitRGBA c with a := 255 }

/-- Model of Go `color.NRGBA{R, G, B, A}.RGBA()`: the premultiplied 16-bit
sample produced by the standard library from a non-premultiplied 8-bit
colour (`r |= r<<8; r *= a; r /= 0xff`). -/
def nrgbaSample (R G B A : ℕ) : Sample :=
  ⟨R * 257 * A / 255, G * 257 * A / 255, B * 257 * A / 255, A * 257⟩

/-- Model of the package-level `EPSILON` variable (generate.go:18),
`0.00000001`. -/
def EPSILON : ℚ := 1 / 100000000

/-- Model of `floatEquals` (generate.go:20-25). -/
def floatEquals (a b : ℚ) : Bool :=
  decide (a - b < EPSILON) && decide (b - a < EPSILON)

/-- Model of the `UniqueColour` struct (generate.go:27-32).  `Index` is the
`uint16` index field; the capacity check keeps its value below 65536. -/
structure UniqueColour where
  RGBA : RGBA8
  H : ℚ
  S : ℚ
  V : ℚ
  Index : ℕ
deriving DecidableEq

/-- Model of `UniqueColourList.Less` (generate.go:40-50). -/
def lessc (a b : UniqueColour) : Bool :=
  if floatEquals a.H b.H then
    if floatEquals a.S b.S then decide (a.V < b.V)
    else decide (a.S < b.S)
  else decide (a.H < b.H)

/-- Insertion of an entry into a list sorted by `lessc`; building block of
the model of the `sort.Sort(colourList)` call (generate.go:130). -/
def insertSorted (x : UniqueColour) : List UniqueColour → List UniqueColour
  | [] => [x]
  | y :: ys => if lessc y x then y :: insertSorted x ys else x :: y :: ys

/-- Model of `sort.Sort(colourList)` (generate.go:130) as a comparison sort
driven by `lessc`: it returns a permutation of its input in which every
adjacent pair is ordered by the comparator, which is the contract of the
standard-library sort for a valid `Less`. -/
def sortColours : List UniqueColour → List UniqueColour
  | [] => []
  | x :: xs => insertSorted x (sortColours xs)

/-- Modelled from the spec: the external go-colorful library's `Hsv` method
is not part of this repository; §4.2 specifies it as "a standard RGB→HSV
formula operating on channels scaled to [0,1]".  The chain of conditionals
mirrors the library's sequence of `if` statements (the last matching branch
wins, so blue takes precedence over green over red on ties); the library's
`math.Mod(x, 6)` is the identity there because `|x| ≤ 1`. -/
def hsvOfKey (k : RGBA8) : ℚ × ℚ × ℚ :=
  let r : ℚ := (k.r : ℚ) / 255
  let g : ℚ := (k.g : ℚ) / 255
  let b : ℚ := (k.b : ℚ) / 255
  let mx := max r (max g b)
  let mn := min r (min g b)
  let c := mx - mn
  let s := if mx = 0 then 0 else c / mx
  let h0 : ℚ :=
    if c = 0 then 0
    else if mx = b then (r - g) / c + 4
    else if mx = g then (b - r) / c + 2
    else (g - b) / c
  let h1 := h0 * 60
  let h := if h1 < 0 then h1 + 360 else h1
  (h, s, mx)

/-- A decoded source image (Go `image.Image` as used by the code: bounds
plus the `At` accessor, which we only ever observe through `RGBA()`). -/
structure SpriteImage where
  minX : ℤ
  minY : ℤ
  maxX : ℤ
  maxY : ℤ
  pix : ℤ → ℤ → Sample

/-- The row-major list of palette-variant canonical keys of every pixel,
mirroring the double loop of generate.go:102-115/134-148. -/
def pixelKeys (img : SpriteImage) : List RGBA8 :=
  (List.range (img.maxY - img.minY).toNat).flatMap fun y =>
    (List.range (img.maxX - img.minX).toNat).map fun x =>
      colourTo8BitPaletteRGBA (img.pix (img.minX + x) (img.minY + y))

/-- The distinct canonical colours of the image in first-occurrence order:
the key set of `colourMap` (generate.go:101-115).  Go map iteration order is
unspecified; this fixes one admissible enumeration. -/
def distinctKeys (img : SpriteImage) : List RGBA8 :=
  (pixelKeys img).foldl (fun acc k => if k ∈ acc then acc else acc ++ [k]) []

/-- The provisional catalog: one `UniqueColour` per distinct key with HSV
components and a provisional index equal to its enumeration position
(generate.go:108-113 and 122-128). -/
def buildEntries (img : SpriteImage) : List UniqueColour :=
  (distinctKeys img).enum.map fun p =>
    ⟨p.2, (hsvOfKey p.2).1, (hsvOfKey p.2).2.1, (hsvOfKey p.2).2.2, p.1⟩

/-- Model of the per-pixel index encoding (generate.go:140-145):
`red = uint8(Index & 0xFFFF)`, `green = uint8(Index >> 16)`, blue 0, and the
alpha that the code writes (`inpix.A`).  `uint8` truncation is `% 256`. -/
def encodeIndexPixel (index alpha : ℕ) : RGBA8 :=
  ⟨(index &&& 65535) % 256, (index >>> 16) % 256, 0, alpha⟩

/-- The error value of the single fatal failure (generate.go:117-119). -/
inductive GenError where
  | capacityExceeded
deriving DecidableEq

/-- The buffers `GenerateFromImage` hands to its output collaborators plus
the returned palette: the index image in row-major order, the returned
palette slice, and the palette texture (dimensions plus entries in layout
order) when one was requested. -/
structure GenOutput where
  indexImage : List RGBA8
  palette : List RGBA8
  paletteTexture : Option (ℤ × ℤ × List RGBA8)
deriving DecidableEq

/-- Model of an arithmetic right shift of a Go `int`: flooring division by a
power of two. -/
def sar (x : ℤ) (n : ℕ) : ℤ := Int.fdiv x (2 ^ n)

/-- Model of `nextPowerOfTwo` (generate.go:191-200) over Go `int` (`ℤ`),
with `|` as two's complement or and `>>` as arithmetic shift. -/
def nextPowerOfTwo (v : ℤ) : ℤ :=
  let v1 := v - 1
  let v2 := Int.lor v1 (sar v1 1)
  let v3 := Int.lor v2 (sar v2 2)
  let v4 := Int.lor v3 (sar v3 4)
  let v5 := Int.lor v4 (sar v4 8)
  let v6 := Int.lor v5 (sar v5 16)
  v6 + 1

/-- Exact value of `int(math.Ceil(float64(a) / float64(b)))` for `b > 0`
(generate.go:206); exact because float64 is exact on the magnitudes the
dimension computation can meet. -/
def ceilDiv (a b : ℤ) : ℤ := Int.fdiv (a + b - 1) b

/-- Model of `getPaletteImageDimensions` (generate.go:202-211). -/
def getPaletteImageDimensions (numColours : ℤ) : ℤ × ℤ :=
  if numColours > 256 then (256, nextPowerOfTwo (ceilDiv numColours 256))
  else if numColours ≤ 128 then (nextPowerOfTwo numColours, 1)
  else (256, 1)

set_option linter.unusedVariables false in
/-- Model of `GenerateFromImage` (generate.go:98-189).  The final index of a
colour is its position in the sorted catalog (the `Index` field tracks that
position through the sort's swaps, see the swap-invariant theorem below).
The `outSprite.Set` conversion to `NRGBA` storage is the identity here
because the written alpha is always 255. -/
def generateFromImage (img : SpriteImage) (outImagePath outPaletteTexture : String) :
    Except GenError GenOutput :=
  if 65536 < (distinctKeys img).length then .error .capacityExceeded
  else
    let sorted := sortColours (buildEntries img)
    let sortedKeys := sorted.map (fun e => e.RGBA)
    let indexImage := (pixelKeys img).map fun k =>
      encodeIndexPixel (sortedKeys.indexOf k) k.a
    let wh := getPaletteImageDimensions ((sortedKeys.length : ℤ))
    let palette := if outPaletteTexture.length > 0 then sortedKeys else []
    let paletteTexture :=
      if outPaletteTexture.length > 0 then some (wh.1, wh.2, sortedKeys) else none
    .ok ⟨indexImage, palette, paletteTexture⟩

/-- Model of `UniqueColourList.Swap` (generate.go:52-55): the two entries
first exchange their `Index` fields, then exchange positions, so the entry
arriving at position `i` carries the `Index` previously stored at `i`.
Go panics on an out-of-range index; the model is the identity there, which
no caller relies on. -/
def swapEntries (l : List UniqueColour) (i j : ℕ) : List UniqueColour :=
  if hi : i < l.length then
    if hj : j < l.length then
      let a := l[i]
      let b := l[j]
      (l.set i { b with Index := a.Index }).set j { a with Index := b.Index }
    else l
  else l

/-- A sequence of `Swap` calls, as a comparison sort performs them. -/
def swapSeq (l : List UniqueColour) (ps : List (ℕ × ℕ)) : List UniqueColour :=
  ps.foldl (fun acc p => swapEntries acc p.1 p.2) l

/-- The comparator exactly as claim C5 words it: `a` strictly before `b`
iff `a.H < b.H` when `|a.H - b.H| ≥ ε`; otherwise `a.S < b.S` when
`|a.S - b.S| ≥ ε`; otherwise `a.V < b.V` with exact `<` and no further
tiebreak. -/
def lessSpecC5 (a b : UniqueColour) : Prop :=
  if EPSILON ≤ |a.H - b.H| then a.H < b.H
  else if EPSILON ≤ |a.S - b.S| then a.S < b.S
  else a.V < b.V

/-- A 1×1 image whose only pixel is the semi-transparent red
`NRGBA(255, 0, 0, 128)`. -/
def imgSemiRed : SpriteImage :=
  ⟨0, 0, 1, 1, fun _ _ => nrgbaSample 255 0 0 128⟩

/-- A 2×1 image with an opaque red pixel and an opaque blue pixel. -/
def imgRedBlue : SpriteImage :=
  ⟨0, 0, 2, 1, fun x _ => if x = 0 then nrgbaSample 255 0 0 255 else nrgbaSample 0 0 255 255⟩

/-- A 0×0 image (empty bounds). -/
def imgEmpty : SpriteImage :=
  ⟨0, 0, 0, 0, fun _ _ => nrgbaSample 0 0 0 255⟩

/-- An entry with provisional index 0 used by concrete check inputs. -/
def eIdx0 : UniqueColour := ⟨⟨1, 2, 3, 255⟩, 0, 0, 0, 0⟩

/-- An entry with provisional index 1 used by concrete check inputs. -/
def eIdx1 : UniqueColour := ⟨⟨4, 5, 6, 255⟩, 1, 0, 0, 1⟩

/-- The integer-level maximum channel of a key. -/
def Mx (k : RGBA8) : ℕ := max k.r (max k.g k.b)

/-- The integer-level minimum channel of a key. -/
def Mn (k : RGBA8) : ℕ := min k.r (min k.g k.b)

/-- The integer-level chroma of a key. -/
def Cd (k : RGBA8) : ℕ := Mx k - Mn k

/-- The saturation of a key, expressed over the integer channels:
chroma over maximum. -/
def satQ (k : RGBA8) : ℚ := if Mx k = 0 then 0 else (Cd k : ℚ) / (Mx k : ℚ)

/-- The pre-scaling hue of a key (hue divided by 60, before the negative
wrap-around), expressed over the integer channels. -/
def hue0 (k : RGBA8) : ℚ :=
  if Cd k = 0 then 0
  else if Mx k = k.b then ((k.r : ℚ) - (k.g : ℚ)) / (Cd k : ℚ) + 4
  else if Mx k = k.g then ((k.b : ℚ) - (k.r : ℚ)) / (Cd k : ℚ) + 2
  else ((k.g : ℚ) - (k.b : ℚ)) / (Cd k : ℚ)

/-- The hue of a key, expressed over the integer channels (scaled by 60 and
wrapped into `[0, 360)`). -/
def hueQ (k : RGBA8) : ℚ := if hue0 k * 60 < 0 then hue0 k * 60 + 360 else hue0 k * 60

/-- The catalog entry of a key, with index 0: the comparator never reads the
index, so this carries the sort-relevant content of an entry. -/
def keyEntry (k : RGBA8) : UniqueColour :=
  ⟨k, (hsvOfKey k).1, (hsvOfKey k).2.1, (hsvOfKey k).2.2, 0⟩

/-- The provisional catalog built from one enumeration order of the colour
map's keys: the provisional index is the enumeration position
(generate.go:122-128); `buildEntries img` is `entriesOf (distinctKeys img)`. -/
def entriesOf (ks : List RGBA8) : List UniqueColour :=
  ks.enum.map fun p =>
    ⟨p.2, (hsvOfKey p.2).1, (hsvOfKey p.2).2.1, (hsvOfKey p.2).2.2, p.1⟩

/-- Forget the provisional index of an entry. -/
def stripIndex (e : UniqueColour) : UniqueColour := { e with Index := 0 }

/-- Go's `color.Color.RGBA()` contract: every channel lies in
`[0, 65535]`.  The `ℕ`-valued model of the sample type needs this bound
stated explicitly; in Go it is enforced by the interface. -/
def sampleInRange (s : Sample) : Prop :=
  s.r ≤ 65535 ∧ s.g ≤ 65535 ∧ s.b ≤ 65535 ∧ s.a ≤ 65535

/-- A canonical palette key as the palette normalizer produces from an
in-range sample: 8-bit colour channels and forced-opaque alpha. -/
def goodKey (k : RGBA8) : Prop :=
  k.r ≤ 255 ∧ k.g ≤ 255 ∧ k.b ≤ 255 ∧ k.a = 255

/-- Exact lexicographic strict order on HSV triples. -/
def lexLt (p q : ℚ × ℚ × ℚ) : Prop :=
  p.1 < q.1 ∨ (p.1 = q.1 ∧ (p.2.1 < q.2.1 ∨ (p.2.1 = q.2.1 ∧ p.2.2 < q.2.2)))

/-- One or-shift stage of the power-of-two closure, on the nonnegative
range: `w ||| (w >>> k)`. -/
def orShift (w k : ℕ) : ℕ := w ||| (w >>> k)

/-- The five or-shift stages of `nextPowerOfTwo` (shift amounts 1, 2, 4, 8,
16) on the nonnegative range. -/
def cascade (w : ℕ) : ℕ :=
  orShift (orShift (orShift (orShift (orShift w 1) 2) 4) 8) 16

/-- The bit length of a natural number: zero for zero, otherwise
`log2 + 1`. -/
def bitlen (w : ℕ) : ℕ := if w = 0 then 0 else Nat.log2 w + 1

unseal Rat.add Rat.mul Rat.inv Rat.sub Nat.gcd in
/-- Claim C1: the code returns the filled palette only when a palette
texture path was supplied.  Evaluated on a two-colour image: with an empty
`outPaletteTexture` the returned palette is empty even though the image has
two distinct canonical colours, while a non-empty path returns both; the
`palette = append(...)` of generate.go:168 sits inside the
`len(outPaletteTexture) > 0` block. -/
theorem palette_empty_without_texture_path :
    ((generateFromImage imgRedBlue "out" "").toOption.map fun o => o.palette.length)
      = some 0 ∧
    (distinctKeys imgRedBlue).length = 2 ∧
    ((generateFromImage imgRedBlue "out" "pal").toOption.map fun o => o.palette.length)
      = some 2 ∧
    ((generateFromImage imgRedBlue "out" "pal").toOption.map fun o => o.palette)
      = some [⟨255, 0, 0, 255⟩, ⟨0, 0, 255, 255⟩] := by
  exact ⟨by decide, by decide, by decide, by decide⟩

/-- Claim C2: the second channel of an encoded index pixel is
`uint8(Index >> 16)`, which is always zero for a `uint16` index, not the
high byte `Index div 256`: at index 300 the code writes channels
`(44, 0, 0)` while `300 div 256 = 1`. -/
theorem index_high_byte_always_zero :
    encodeIndexPixel 300 255 = ⟨44, 0, 0, 255⟩ ∧
    300 % 256 = 44 ∧ 300 / 256 = 1 ∧
    (∀ index alpha : ℕ, index < 65536 → (encodeIndexPixel index alpha).g = 0) := by
  refine ⟨by decide, by decide, by decide, ?_⟩
  intro index alpha h
  simp only [encodeIndexPixel]
  have : index >>> 16 = 0 := by
    rw [Nat.shiftRight_eq_div_pow]
    omega
  simp [this]

/-- Witness for the hypothesis-bearing conjunct of the C2 theorem. -/
theorem index_high_byte_always_zero_witness :
    (encodeIndexPixel 301 7).g = 0 :=
  index_high_byte_always_zero.2.2.2 301 7 (by decide)

/-- Claim C3: the alpha written to the index image is `inpix.A` where
`inpix` was produced by the palette-variant normalizer (generate.go:136),
so it is always 255; for the semi-transparent red pixel the canonical
(non-opaque-variant) alpha is 128, yet the index image stores 255. -/
theorem index_image_alpha_forced_opaque :
    ((generateFromImage imgSemiRed "out" "pal").toOption.map fun o => o.indexImage)
      = some [⟨0, 0, 0, 255⟩] ∧
    (colourTo8BitRGBA (imgSemiRed.pix 0 0)).a = 128 ∧
    (colourTo8BitPaletteRGBA (imgSemiRed.pix 0 0)).a = 255 := by
  refine ⟨rfl, by decide, by decide⟩

/-- Claim C4: `GenerateFromImage` fails if and only if the image has more
than 65536 distinct canonical colours, and that failure is the capacity
error raised before any output buffer is produced (the `Except.error`
result carries no output). -/
theorem capacity_error_iff_too_many_colours :
    ∀ (img : SpriteImage) (op opt : String),
      (generateFromImage img op opt = .error .capacityExceeded
        ↔ 65536 < (distinctKeys img).length) ∧
      ((∃ o, generateFromImage img op opt = .ok o)
        ↔ (distinctKeys img).length ≤ 65536) := by
  intro img op opt
  by_cases h : 65536 < (distinctKeys img).length
  · constructor
    · simp [generateFromImage, h]
    · simp only [generateFromImage, if_pos h]
      constructor
      · rintro ⟨o, ho⟩
        exact absurd ho (by simp)
      · omega
  · constructor
    · simp only [generateFromImage, if_neg h]
      constructor
      · intro ho
        exact absurd ho (by simp)
      · omega
    · simp only [generateFromImage, if_neg h]
      exact ⟨fun _ => by omega, fun _ => ⟨_, rfl⟩⟩

/-- Claim C7, counterexample: a fully transparent pixel and a fully opaque
pixel sharing the non-premultiplied RGB `(255, 0, 0)` do NOT collapse to the
same catalog key: the sample arrives alpha-premultiplied and the normalizer
preserves premultiplication, so the transparent pixel's key is opaque black
`(0, 0, 0, 255)` while the opaque pixel's key is `(255, 0, 0, 255)`. -/
theorem transparent_and_opaque_red_distinct_keys :
    colourTo8BitPaletteRGBA (nrgbaSample 255 0 0 0) = ⟨0, 0, 0, 255⟩ ∧
    colourTo8BitPaletteRGBA (nrgbaSample 255 0 0 255) = ⟨255, 0, 0, 255⟩ ∧
    colourTo8BitPaletteRGBA (nrgbaSample 255 0 0 0)
      ≠ colourTo8BitPaletteRGBA (nrgbaSample 255 0 0 255) := by
  refine ⟨by decide, by decide, by decide⟩

/-- Claim C7, amended: catalog key construction collapses two source
samples exactly when their premultiplied RGB components agree after 8-bit
scaling — alpha never distinguishes keys — and a fully transparent pixel
(whose premultiplied RGB is zero) collapses with opaque black, not with the
opaque pixel of the same non-premultiplied RGB; an opaque pixel's key keeps
its RGB verbatim. -/
theorem palette_key_ignores_alpha_and_preserves_premultiplication :
    (∀ r g b a₁ a₂ : ℕ,
      colourTo8BitPaletteRGBA ⟨r, g, b, a₁⟩ = colourTo8BitPaletteRGBA ⟨r, g, b, a₂⟩) ∧
    (∀ R G B : ℕ, colourTo8BitPaletteRGBA (nrgbaSample R G B 0) = ⟨0, 0, 0, 255⟩) := by
  constructor
  · intro r g b a₁ a₂
    rfl
  · intro R G B
    simp [nrgbaSample, colourTo8BitPaletteRGBA, colourTo8BitRGBA, scale8]

lemma floatEquals_iff (a b : ℚ) : floatEquals a b = true ↔ |a - b| < EPSILON := by
  simp only [floatEquals, Bool.and_eq_true, decide_eq_true_eq, abs_sub_lt_iff]

lemma floatEquals_comm (a b : ℚ) : floatEquals a b = floatEquals b a := by
  simp only [floatEquals]
  rw [Bool.and_comm]

lemma lessc_asymm {a b : UniqueColour} (h : lessc a b = true) : lessc b a = false := by
  cases hH : floatEquals a.H b.H <;> cases hS : floatEquals a.S b.S <;>
    simp only [lessc, floatEquals_comm b.H a.H, floatEquals_comm b.S a.S, hH, hS,
      Bool.false_eq_true, if_false, if_true, decide_eq_true_eq,
      decide_eq_false_iff_not, not_lt] at h ⊢ <;>
    exact le_of_lt h

/-- After inserting into a list whose adjacent pairs are ordered by the
comparator, adjacent pairs are still ordered. -/
lemma chain'_insertSorted (x : UniqueColour) (l : List UniqueColour)
    (h : l.Chain' fun a b => lessc b a = false) :
    (insertSorted x l).Chain' fun a b => lessc b a = false := by
  induction l with
  | nil => simp [insertSorted]
  | cons y ys ih =>
    rw [List.chain'_cons'] at h
    by_cases hyx : lessc y x
    · rw [insertSorted, if_pos hyx]
      rw [List.chain'_cons']
      refine ⟨?_, ih h.2⟩
      intro z hz
      cases ys with
      | nil =>
        simp [insertSorted] at hz
        subst hz
        exact lessc_asymm hyx
      | cons w ws =>
        by_cases hwx : lessc w x
        · rw [insertSorted, if_pos hwx] at hz
          simp only [List.head?_cons, Option.mem_def, Option.some.injEq] at hz
          subst hz
          exact h.1 w (by simp)
        · rw [insertSorted, if_neg hwx] at hz
          simp only [List.head?_cons, Option.mem_def, Option.some.injEq] at hz
          subst hz
          exact lessc_asymm hyx
    · rw [insertSorted, if_neg hyx]
      rw [List.chain'_cons']
      refine ⟨?_, List.chain'_cons'.mpr h⟩
      intro z hz
      simp only [List.head?_cons, Option.mem_def, Option.some.injEq] at hz
      subst hz
      exact Bool.eq_false_iff.mpr hyx

lemma swapEntries_index_invariant (l : List UniqueColour) (i j : ℕ)
    (hinv : ∀ k (hk : k < l.length), l[k].Index = k) :
    ∀ k (hk : k < (swapEntries l i j).length), (swapEntries l i j)[k].Index = k := by
  unfold swapEntries
  split
  · rename_i hi
    split
    · rename_i hj
      intro k hk
      have hk' : k < l.length := by simpa using hk
      rw [List.getElem_set, List.getElem_set]
      by_cases hjk : j = k
      · rw [if_pos hjk]
        exact hjk ▸ hinv j hj
      · rw [if_neg hjk]
        by_cases hik : i = k
        · rw [if_pos hik]
          exact hik ▸ hinv i hi
        · rw [if_neg hik]
          exact hinv k hk'
    · exact hinv
  · exact hinv

lemma swapSeq_index_invariant (ps : List (ℕ × ℕ)) :
    ∀ (l : List UniqueColour),
      (∀ k (hk : k < l.length), l[k].Index = k) →
      ∀ k (hk : k < (swapSeq l ps).length), (swapSeq l ps)[k].Index = k := by
  induction ps with
  | nil => intro l hinv; exact hinv
  | cons p ps ih =>
    intro l hinv
    exact ih (swapEntries l p.1 p.2) (swapEntries_index_invariant l p.1 p.2 hinv)

/-- Claim C8: starting from the provisional assignment in which the entry
at position `k` has `Index = k`, a `Swap` (exchange the `Index` fields,
then exchange the positions, generate.go:52-55) preserves that property,
and hence so does any sequence of swaps a sort performs: after sorting,
the entry at position `n` of the colour list (the same entry the colour
map references) has `Index = n`. -/
theorem sort_swaps_preserve_index_invariant
    (l : List UniqueColour) (i j : ℕ) (ps : List (ℕ × ℕ))
    (hinv : ∀ k (hk : k < l.length), l[k].Index = k) :
    (∀ k (hk : k < (swapEntries l i j).length), (swapEntries l i j)[k].Index = k) ∧
    (∀ k (hk : k < (swapSeq l ps).length), (swapSeq l ps)[k].Index = k) :=
  ⟨swapEntries_index_invariant l i j hinv, swapSeq_index_invariant ps l hinv⟩

/-- Witness for the C8 theorem: a concrete two-entry list satisfying the
invariant, one swap, and a two-swap sequence. -/
theorem sort_swaps_preserve_index_invariant_witness :
    (∀ k (hk : k < (swapEntries [eIdx0, eIdx1] 0 1).length),
      (swapEntries [eIdx0, eIdx1] 0 1)[k].Index = k) ∧
    (∀ k (hk : k < (swapSeq [eIdx0, eIdx1] [(0, 1), (1, 0)]).length),
      (swapSeq [eIdx0, eIdx1] [(0, 1), (1, 0)])[k].Index = k) :=
  sort_swaps_preserve_index_invariant [eIdx0, eIdx1] 0 1 [(0, 1), (1, 0)]
    (by decide)

/-- The sorted colour list has every adjacent pair ordered by the
comparator. -/
lemma sortColours_chain' (l : List UniqueColour) :
    (sortColours l).Chain' fun a b => lessc b a = false := by
  induction l with
  | nil => simp [sortColours]
  | cons x xs ih => exact chain'_insertSorted x _ ih

/-- Claim C5: the catalog comparator orders `a` before `b` exactly as the
spec describes (hue with epsilon tolerance, then saturation with epsilon
tolerance, then exact `<` on value, no further tiebreak), `EPSILON` is
`1e-8`, and the sorted colour list has every adjacent pair ordered by the
comparator. -/
theorem comparator_matches_spec_and_palette_sorted :
    (∀ a b : UniqueColour, lessc a b = true ↔ lessSpecC5 a b) ∧
    EPSILON = 1 / 100000000 ∧
    (∀ l : List UniqueColour,
      (sortColours l).Chain' fun a b => lessc b a = false) := by
  refine ⟨?_, rfl, ?_⟩
  · intro a b
    simp only [lessc, lessSpecC5]
    by_cases hH : floatEquals a.H b.H
    · have hH' : ¬ EPSILON ≤ |a.H - b.H| := not_le.mpr ((floatEquals_iff _ _).mp hH)
      rw [hH, if_neg hH']
      by_cases hS : floatEquals a.S b.S
      · have hS' : ¬ EPSILON ≤ |a.S - b.S| := not_le.mpr ((floatEquals_iff _ _).mp hS)
        rw [hS, if_neg hS']
        simp
      · have hS' : EPSILON ≤ |a.S - b.S| := by
          by_contra hc
          exact hS ((floatEquals_iff _ _).mpr (not_le.mp hc))
        rw [Bool.eq_false_iff.mpr hS, if_pos hS']
        simp
    · have hH' : EPSILON ≤ |a.H - b.H| := by
        by_contra hc
        exact hH ((floatEquals_iff _ _).mpr (not_le.mp hc))
      rw [Bool.eq_false_iff.mpr hH, if_pos hH']
      simp
  · exact sortColours_chain'

/-- Claim C10: `nextPowerOfTwo 0 = 0` (the decrement wraps to `-1`, every
arithmetic shift and or leaves `-1` unchanged, and the increment returns to
zero), so a zero-colour catalog gets a palette layout of width 0 and height
1 rather than an error or a minimum 1×1 size; a zero-pixel image indeed
reaches that layout without failing. -/
theorem zero_colours_gives_zero_width_layout :
    nextPowerOfTwo 0 = 0 ∧
    getPaletteImageDimensions 0 = (0, 1) ∧
    generateFromImage imgEmpty "out" "pal" = .ok ⟨[], [], some (0, 1, [])⟩ := by
  refine ⟨by decide, by decide, rfl⟩

lemma insertSorted_perm (x : UniqueColour) (l : List UniqueColour) :
    (insertSorted x l).Perm (x :: l) := by
  induction l with
  | nil => simp [insertSorted]
  | cons y ys ih =>
    by_cases hyx : lessc y x
    · rw [insertSorted, if_pos hyx]
      exact (ih.cons y).trans (List.Perm.swap x y ys)
    · rw [insertSorted, if_neg hyx]

lemma sortColours_perm (l : List UniqueColour) : (sortColours l).Perm l := by
  induction l with
  | nil => simp [sortColours]
  | cons x xs ih =>
    exact (insertSorted_perm x (sortColours xs)).trans (ih.cons x)

/-- Adjacent-pair sortedness upgrades to pairwise sortedness when the
relation is transitive on the list's elements. -/
lemma chain'_pairwise_of_trans {α : Type} {r : α → α → Prop} :
    ∀ l : List α, l.Chain' r →
      (∀ a ∈ l, ∀ b ∈ l, ∀ c ∈ l, r a b → r b c → r a c) → l.Pairwise r := by
  intro l
  induction l with
  | nil => simp
  | cons a t ih =>
    intro hc htr
    cases t with
    | nil => simp
    | cons b t' =>
      rw [List.chain'_cons] at hc
      have hp : (b :: t').Pairwise r := by
        refine ih hc.2 ?_
        intro x hx y hy z hz
        exact htr x (List.mem_cons_of_mem a hx) y (List.mem_cons_of_mem a hy)
          z (List.mem_cons_of_mem a hz)
      refine List.Pairwise.cons ?_ hp
      intro c hcmem
      rcases List.mem_cons.mp hcmem with rfl | hct'
      · exact hc.1
      · have hbc : r b c := (List.pairwise_cons.mp hp).1 c hct'
        exact htr a (List.mem_cons_self _ _) b (List.mem_cons_of_mem a (List.mem_cons_self _ _))
          c (List.mem_cons_of_mem a (List.mem_cons_of_mem b hct')) hc.1 hbc

/-- Two pairwise-sorted permutations of each other are equal when the
relation is antisymmetric on the first list's elements. -/
lemma pairwise_perm_eq {α : Type} {r : α → α → Prop} :
    ∀ l₁ l₂ : List α, l₁.Perm l₂ →
      (∀ a ∈ l₁, ∀ b ∈ l₁, r a b → r b a → a = b) →
      l₁.Pairwise r → l₂.Pairwise r → l₁ = l₂ := by
  intro l₁
  induction l₁ with
  | nil =>
    intro l₂ hperm _ _ _
    exact hperm.nil_eq
  | cons a t₁ ih =>
    intro l₂ hperm hanti hp₁ hp₂
    cases l₂ with
    | nil => exact absurd hperm.symm.nil_eq (by simp)
    | cons b t₂ =>
      by_cases hab : a = b
      · subst hab
        have ht : t₁.Perm t₂ := hperm.cons_inv
        have : t₁ = t₂ := by
          refine ih t₂ ht ?_ (List.pairwise_cons.mp hp₁).2 (List.pairwise_cons.mp hp₂).2
          intro x hx y hy
          exact hanti x (List.mem_cons_of_mem a hx) y (List.mem_cons_of_mem a hy)
        rw [this]
      · have hamem : a ∈ t₂ := by
          have : a ∈ b :: t₂ := hperm.subset (List.mem_cons_self _ _)
          exact (List.mem_cons.mp this).resolve_left hab
        have hbmem : b ∈ t₁ := by
          have : b ∈ a :: t₁ := hperm.symm.subset (List.mem_cons_self _ _)
          exact (List.mem_cons.mp this).resolve_left (fun h => hab h.symm)
        have hrab : r a b := (List.pairwise_cons.mp hp₁).1 b hbmem
        have hrba : r b a := (List.pairwise_cons.mp hp₂).1 a hamem
        exact absurd (hanti a (List.mem_cons_self _ _) b (List.mem_cons_of_mem a hbmem) hrab hrba) hab

/-- When the comparator is a strict total order on the given entries
(transitive on them and never leaving two distinct entries incomparable),
every permutation sorts to the same list. -/
lemma sortColours_eq_of_strict_total
    (l₁ l₂ : List UniqueColour) (hperm : l₁.Perm l₂)
    (htrans : ∀ a ∈ l₁, ∀ b ∈ l₁, ∀ c ∈ l₁,
      lessc a b = true → lessc b c = true → lessc a c = true)
    (htotal : ∀ a ∈ l₁, ∀ b ∈ l₁, lessc a b = false → lessc b a = false → a = b) :
    sortColours l₁ = sortColours l₂ ∧
    (sortColours l₁).map (fun e => e.RGBA) = (sortColours l₂).map (fun e => e.RGBA) := by
  have hmem₁ : ∀ a ∈ sortColours l₁, a ∈ l₁ :=
    fun a ha => (sortColours_perm l₁).subset ha
  have hmem₂ : ∀ a ∈ sortColours l₂, a ∈ l₁ :=
    fun a ha => hperm.symm.subset ((sortColours_perm l₂).subset ha)
  have hr_trans : ∀ (s : List UniqueColour), (∀ a ∈ s, a ∈ l₁) →
      ∀ a ∈ s, ∀ b ∈ s, ∀ c ∈ s,
        lessc b a = false → lessc c b = false → lessc c a = false := by
    intro s hs a ha b hb c hc hab hbc
    by_contra hca'
    have hca : lessc c a = true := by
      cases hval : lessc c a
      · exact absurd hval hca'
      · rfl
    by_cases h2 : lessc a b = true
    · have : lessc c b = true :=
        htrans c (hs c hc) a (hs a ha) b (hs b hb) hca h2
      rw [this] at hbc
      exact absurd hbc (by simp)
    · have h2' : lessc a b = false := by
        cases hval : lessc a b
        · rfl
        · exact absurd hval h2
      have : a = b := htotal a (hs a ha) b (hs b hb) h2' hab
      subst this
      rw [hca] at hbc
      exact absurd hbc (by simp)
  have hp₁ : (sortColours l₁).Pairwise fun a b => lessc b a = false :=
    chain'_pairwise_of_trans _ (sortColours_chain' l₁)
      (fun a ha b hb c hc => hr_trans (sortColours l₁) hmem₁ a ha b hb c hc)
  have hp₂ : (sortColours l₂).Pairwise fun a b => lessc b a = false :=
    chain'_pairwise_of_trans _ (sortColours_chain' l₂)
      (fun a ha b hb c hc => hr_trans (sortColours l₂) hmem₂ a ha b hb c hc)
  have hup : (sortColours l₁).Perm (sortColours l₂) :=
    (sortColours_perm l₁).trans (hperm.trans (sortColours_perm l₂).symm)
  have heq : sortColours l₁ = sortColours l₂ := by
    refine pairwise_perm_eq _ _ hup ?_ hp₁ hp₂
    intro a ha b hb hab hba
    exact htotal a (hmem₁ a ha) b (hmem₁ b hb) hba hab
  exact ⟨heq, by rw [heq]⟩

lemma orShift_cover {w u m : ℕ}
    (hu : ∀ i, u.testBit i = true ↔ ∃ d, d < m ∧ w.testBit (i + d) = true) :
    ∀ i, (orShift u m).testBit i = true ↔
      ∃ d, d < 2 * m ∧ w.testBit (i + d) = true := by
  intro i
  unfold orShift
  rw [Nat.testBit_or, Bool.or_eq_true, Nat.testBit_shiftRight, hu i, hu (m + i)]
  constructor
  · rintro (⟨d, hd, hb⟩ | ⟨d, hd, hb⟩)
    · exact ⟨d, by omega, hb⟩
    · refine ⟨m + d, by omega, ?_⟩
      have harith : m + i + d = i + (m + d) := by omega
      rw [harith] at hb
      exact hb
  · rintro ⟨d, hd, hb⟩
    by_cases hdm : d < m
    · exact Or.inl ⟨d, hdm, hb⟩
    · refine Or.inr ⟨d - m, by omega, ?_⟩
      have harith : m + i + (d - m) = i + d := by omega
      rw [harith]
      exact hb

lemma cascade_testBit (w : ℕ) :
    ∀ i, (cascade w).testBit i = true ↔ ∃ d, d < 32 ∧ w.testBit (i + d) = true := by
  have h0 : ∀ i, w.testBit i = true ↔ ∃ d, d < 1 ∧ w.testBit (i + d) = true := by
    intro i
    constructor
    · intro h
      exact ⟨0, by omega, by simpa using h⟩
    · rintro ⟨d, hd, hb⟩
      have : d = 0 := by omega
      subst this
      simpa using hb
  have h1 := orShift_cover h0
  have h2 := orShift_cover h1
  have h4 := orShift_cover h2
  have h8 := orShift_cover h4
  have h16 := orShift_cover h8
  intro i
  exact h16 i

lemma testBit_true_lt_bitlen {w j : ℕ} (h : w.testBit j = true) : j < bitlen w := by
  by_contra hc
  have hge : bitlen w ≤ j := by omega
  have hw0 : w ≠ 0 := by
    intro h0
    subst h0
    simp [Nat.zero_testBit] at h
  have hlt : w < 2 ^ j := by
    have h1 : w < 2 ^ bitlen w := by
      unfold bitlen
      rw [if_neg hw0]
      exact Nat.lt_log2_self
    calc w < 2 ^ bitlen w := h1
      _ ≤ 2 ^ j := Nat.pow_le_pow_right (by omega) hge
  rw [Nat.testBit_lt_two_pow hlt] at h
  exact absurd h (by simp)

lemma testBit_log2 {w : ℕ} (hw : w ≠ 0) : w.testBit (Nat.log2 w) = true := by
  rw [Nat.testBit_to_div_mod]
  have h1 : 2 ^ Nat.log2 w ≤ w := Nat.log2_self_le hw
  have h2 : w < 2 ^ (Nat.log2 w + 1) := Nat.lt_log2_self
  have h3 : w / 2 ^ Nat.log2 w = 1 := by
    have hpos : 0 < 2 ^ Nat.log2 w := Nat.pos_pow_of_pos _ (by omega)
    have hlow : 1 ≤ w / 2 ^ Nat.log2 w := (Nat.le_div_iff_mul_le hpos).mpr (by omega)
    have hhigh : w / 2 ^ Nat.log2 w < 2 := by
      rw [Nat.div_lt_iff_lt_mul hpos]
      have : 2 ^ (Nat.log2 w + 1) = 2 ^ Nat.log2 w * 2 := by ring
      omega
    omega
  rw [h3]
  decide

lemma cascade_eq_pow_sub_one {w : ℕ} (hw : w < 2 ^ 32) :
    cascade w = 2 ^ bitlen w - 1 := by
  apply Nat.eq_of_testBit_eq
  intro i
  rw [Nat.testBit_two_pow_sub_one]
  have hiff : (cascade w).testBit i = true ↔ i < bitlen w := by
    rw [cascade_testBit]
    constructor
    · rintro ⟨d, hd, hb⟩
      have := testBit_true_lt_bitlen hb
      omega
    · intro hi
      have hw0 : w ≠ 0 := by
        intro h0
        subst h0
        simp [bitlen] at hi
      have hlog : Nat.log2 w < 32 := (Nat.log2_lt hw0).mpr hw
      have hile : i ≤ Nat.log2 w := by
        unfold bitlen at hi
        rw [if_neg hw0] at hi
        omega
      refine ⟨Nat.log2 w - i, by omega, ?_⟩
      have harith : i + (Nat.log2 w - i) = Nat.log2 w := by omega
      rw [harith]
      exact testBit_log2 hw0
  cases hb : (cascade w).testBit i
  · rw [hb] at hiff
    have : ¬ i < bitlen w := fun h => absurd (hiff.mpr h) (by simp)
    simp [this]
  · rw [hb] at hiff
    have : i < bitlen w := hiff.mp rfl
    simp [this]

lemma lor_sar_natCast (m k : ℕ) :
    Int.lor (m : ℤ) (sar (m : ℤ) k) = ((orShift m k : ℕ) : ℤ) := by
  have hdiv : sar (m : ℤ) k = ((m >>> k : ℕ) : ℤ) := by
    unfold sar
    rw [Nat.shiftRight_eq_div_pow]
    have hc : ((2 : ℤ) ^ k) = ((2 ^ k : ℕ) : ℤ) := by push_cast; ring
    rw [hc, Int.fdiv_eq_ediv _ (by positivity)]
    exact_mod_cast (Int.ofNat_ediv m (2 ^ k)).symm
  rw [hdiv]
  rfl

lemma nextPowerOfTwo_natBridge (w : ℕ) :
    nextPowerOfTwo ((w : ℤ) + 1) = ((cascade w : ℕ) : ℤ) + 1 := by
  simp only [nextPowerOfTwo, cascade, add_sub_cancel_right, lor_sar_natCast]

lemma bitlen_le {w j : ℕ} (h : w < 2 ^ j) : bitlen w ≤ j := by
  unfold bitlen
  by_cases hw : w = 0
  · rw [if_pos hw]
    omega
  · rw [if_neg hw]
    have := (Nat.log2_lt hw).mpr h
    omega

lemma lt_two_pow_bitlen (w : ℕ) : w < 2 ^ bitlen w := by
  unfold bitlen
  by_cases hw : w = 0
  · rw [if_pos hw]
    omega
  · rw [if_neg hw]
    exact Nat.lt_log2_self

lemma npot_eq_two_pow {v : ℤ} (h1 : 1 ≤ v) (h2 : v ≤ 2 ^ 32) :
    nextPowerOfTwo v = 2 ^ bitlen (v - 1).toNat := by
  set w := (v - 1).toNat with hw
  have hv : v = (w : ℤ) + 1 := by omega
  have hw32 : w < 2 ^ 32 := by
    have hn : (2 : ℤ) ^ 32 = 4294967296 := by norm_num
    have hm : (2 : ℕ) ^ 32 = 4294967296 := by norm_num
    omega
  rw [hv, nextPowerOfTwo_natBridge, cascade_eq_pow_sub_one hw32,
    Nat.cast_sub Nat.one_le_two_pow]
  push_cast
  ring

unseal Nat.gcd in
/-- Claim C6, counterexample: the or-cascade stops at shift 16, so it only
closes 32 bits; at `v = 2^32 + 1` the function returns `2^33 - 1`, which is
not a power of two, hence not the smallest power of two ≥ v. -/
theorem npot_fails_beyond_32_bits :
    nextPowerOfTwo 4294967297 = 8589934591 ∧
    ¬ ∃ k : ℕ, (8589934591 : ℤ) = 2 ^ k := by
  constructor
  · decide
  · rintro ⟨k, hk⟩
    cases k with
    | zero => norm_num at hk
    | succ k' =>
      have h2 : (2 : ℤ) ∣ 2 ^ (k' + 1) := dvd_pow_self 2 (Nat.succ_ne_zero k')
      rw [← hk] at h2
      norm_num at h2

/-- Claim C6, amended: the dimension formula holds as stated for every
`N ≥ 1`, and `nextPowerOfTwo v` is the smallest power of two ≥ v for
`1 ≤ v ≤ 2^32` (beyond that the 16-bit-deep shift cascade under-fills, see
the counterexample); all the concrete table entries hold. -/
theorem palette_dimensions_formula_and_npot_correct_below_2pow32 :
    (∀ N : ℤ, 1 ≤ N →
      getPaletteImageDimensions N =
        if N ≤ 128 then (nextPowerOfTwo N, 1)
        else if N ≤ 256 then ((256 : ℤ), (1 : ℤ))
        else ((256 : ℤ), nextPowerOfTwo (ceilDiv N 256))) ∧
    (∀ v : ℤ, 1 ≤ v → v ≤ 2 ^ 32 →
      (∃ k : ℕ, nextPowerOfTwo v = 2 ^ k) ∧
      v ≤ nextPowerOfTwo v ∧
      (∀ j : ℕ, v ≤ 2 ^ j → nextPowerOfTwo v ≤ 2 ^ j)) ∧
    getPaletteImageDimensions 1 = (1, 1) ∧
    getPaletteImageDimensions 128 = (128, 1) ∧
    getPaletteImageDimensions 129 = (256, 1) ∧
    getPaletteImageDimensions 256 = (256, 1) ∧
    getPaletteImageDimensions 257 = (256, 2) ∧
    getPaletteImageDimensions 1024 = (256, 4) ∧
    nextPowerOfTwo 1 = 1 ∧ nextPowerOfTwo 5 = 8 ∧
    nextPowerOfTwo 256 = 256 ∧ nextPowerOfTwo 257 = 512 := by
  refine ⟨?_, ?_, by decide, by decide, by decide, by decide, by decide, by decide,
    by decide, by decide, by decide, by decide⟩
  · intro N hN
    unfold getPaletteImageDimensions
    split_ifs <;> first | rfl | omega
  · intro v h1 h2
    rw [npot_eq_two_pow h1 h2]
    set w := (v - 1).toNat with hw
    have hcast : ((2 ^ bitlen w : ℕ) : ℤ) = 2 ^ bitlen w := by push_cast; ring
    refine ⟨⟨bitlen w, rfl⟩, ?_, ?_⟩
    · have := lt_two_pow_bitlen w
      omega
    · intro j hj
      have hwj : w < 2 ^ j := by
        have hc : ((2 ^ j : ℕ) : ℤ) = 2 ^ j := by push_cast; ring
        omega
      have hble : bitlen w ≤ j := bitlen_le hwj
      exact pow_le_pow_right₀ (by norm_num) hble

/-- Witness for the amended C6 theorem at `N = 300` and `v = 5`. -/
theorem palette_dimensions_formula_witness :
    getPaletteImageDimensions 300 =
      (if (300 : ℤ) ≤ 128 then (nextPowerOfTwo 300, 1)
       else if (300 : ℤ) ≤ 256 then ((256 : ℤ), (1 : ℤ))
       else ((256 : ℤ), nextPowerOfTwo (ceilDiv 300 256))) ∧
    (∃ k : ℕ, nextPowerOfTwo 5 = 2 ^ k) ∧ (5 : ℤ) ≤ nextPowerOfTwo 5 :=
  ⟨palette_dimensions_formula_and_npot_correct_below_2pow32.1 300 (by norm_num),
   (palette_dimensions_formula_and_npot_correct_below_2pow32.2.1 5 (by norm_num)
     (by norm_num)).1,
   (palette_dimensions_formula_and_npot_correct_below_2pow32.2.1 5 (by norm_num)
     (by norm_num)).2.1⟩

lemma Mn_le_Mx (k : RGBA8) : Mn k ≤ Mx k := by
  unfold Mn Mx
  omega

lemma chan_le_Mx (k : RGBA8) : k.r ≤ Mx k ∧ k.g ≤ Mx k ∧ k.b ≤ Mx k := by
  unfold Mx
  omega

lemma Mn_le_chan (k : RGBA8) : Mn k ≤ k.r ∧ Mn k ≤ k.g ∧ Mn k ≤ k.b := by
  unfold Mn
  omega

lemma max_div255 (m n : ℕ) :
    max ((m : ℚ) / 255) ((n : ℚ) / 255) = ((max m n : ℕ) : ℚ) / 255 := by
  rcases le_total m n with h | h
  · have h' : (m : ℚ) ≤ (n : ℚ) := by exact_mod_cast h
    rw [max_eq_right (by gcongr), Nat.max_eq_right h]
  · have h' : (n : ℚ) ≤ (m : ℚ) := by exact_mod_cast h
    rw [max_eq_left (by gcongr), Nat.max_eq_left h]

lemma min_div255 (m n : ℕ) :
    min ((m : ℚ) / 255) ((n : ℚ) / 255) = ((min m n : ℕ) : ℚ) / 255 := by
  rcases le_total m n with h | h
  · have h' : (m : ℚ) ≤ (n : ℚ) := by exact_mod_cast h
    rw [min_eq_left (by gcongr), Nat.min_eq_left h]
  · have h' : (n : ℚ) ≤ (m : ℚ) := by exact_mod_cast h
    rw [min_eq_right (by gcongr), Nat.min_eq_right h]

lemma cast_Cd (k : RGBA8) : ((Cd k : ℕ) : ℚ) = (Mx k : ℚ) - (Mn k : ℚ) := by
  unfold Cd
  push_cast [Nat.cast_sub (Mn_le_Mx k)]
  ring

lemma hsvOfKey_eq (k : RGBA8) : hsvOfKey k = (hueQ k, satQ k, (Mx k : ℚ) / 255) := by
  have hmx : max ((k.r : ℚ) / 255) (max ((k.g : ℚ) / 255) ((k.b : ℚ) / 255))
      = (Mx k : ℚ) / 255 := by
    rw [max_div255, max_div255]
    rfl
  have hmn : min ((k.r : ℚ) / 255) (min ((k.g : ℚ) / 255) ((k.b : ℚ) / 255))
      = (Mn k : ℚ) / 255 := by
    rw [min_div255, min_div255]
    rfl
  have hc : (Mx k : ℚ) / 255 - (Mn k : ℚ) / 255 = (Cd k : ℚ) / 255 := by
    rw [cast_Cd]
    ring
  have h255 : (255 : ℚ) ≠ 0 := by norm_num
  have hh0 : (if (Cd k : ℚ) / 255 = 0 then (0 : ℚ)
      else if (Mx k : ℚ) / 255 = (k.b : ℚ) / 255 then
        ((k.r : ℚ) / 255 - (k.g : ℚ) / 255) / ((Cd k : ℚ) / 255) + 4
      else if (Mx k : ℚ) / 255 = (k.g : ℚ) / 255 then
        ((k.b : ℚ) / 255 - (k.r : ℚ) / 255) / ((Cd k : ℚ) / 255) + 2
      else ((k.g : ℚ) / 255 - (k.b : ℚ) / 255) / ((Cd k : ℚ) / 255)) = hue0 k := by
    unfold hue0
    by_cases hC : Cd k = 0
    · rw [if_pos (by rw [hC]; norm_num), if_pos hC]
    · have hCq : (Cd k : ℚ) ≠ 0 := Nat.cast_ne_zero.mpr hC
      rw [if_neg (by simp [div_eq_zero_iff, hCq]), if_neg hC]
      by_cases hb : Mx k = k.b
      · rw [if_pos (by rw [hb]), if_pos hb]
        field_simp
      · rw [if_neg (fun h => hb (by field_simp at h; exact_mod_cast h)), if_neg hb]
        by_cases hg : Mx k = k.g
        · rw [if_pos (by rw [hg]), if_pos hg]
          field_simp
        · rw [if_neg (fun h => hg (by field_simp at h; exact_mod_cast h)), if_neg hg]
          field_simp
  have hs : (if (Mx k : ℚ) / 255 = 0 then (0 : ℚ)
      else ((Cd k : ℚ) / 255) / ((Mx k : ℚ) / 255)) = satQ k := by
    unfold satQ
    by_cases hM : Mx k = 0
    · rw [if_pos (by rw [hM]; norm_num), if_pos hM]
    · have hMq : (Mx k : ℚ) ≠ 0 := Nat.cast_ne_zero.mpr hM
      rw [if_neg (by simp [div_eq_zero_iff, hMq]), if_neg hM]
      field_simp
  simp only [hsvOfKey, hmx, hmn, hc, hh0, hs]
  rfl

lemma Cd_pos_q {k : RGBA8} (hC : Cd k ≠ 0) : (0 : ℚ) < (Cd k : ℚ) := by
  exact_mod_cast Nat.pos_of_ne_zero hC

lemma hue0_blue_range {k : RGBA8} (hC : Cd k ≠ 0) (hb : Mx k = k.b) :
    3 ≤ hue0 k ∧ hue0 k ≤ 5 := by
  have hCpos := Cd_pos_q hC
  have hr : (k.r : ℚ) ≤ (Mx k : ℚ) := by exact_mod_cast (chan_le_Mx k).1
  have hg : (Mn k : ℚ) ≤ (k.g : ℚ) := by exact_mod_cast (Mn_le_chan k).2.1
  have hr' : (Mn k : ℚ) ≤ (k.r : ℚ) := by exact_mod_cast (Mn_le_chan k).1
  have hg' : (k.g : ℚ) ≤ (Mx k : ℚ) := by exact_mod_cast (chan_le_Mx k).2.1
  have hcd := cast_Cd k
  unfold hue0
  rw [if_neg hC, if_pos hb]
  constructor
  · have : (-1 : ℚ) ≤ ((k.r : ℚ) - k.g) / (Cd k : ℚ) :=
      (le_div_iff₀ hCpos).mpr (by linarith)
    linarith
  · have : ((k.r : ℚ) - k.g) / (Cd k : ℚ) ≤ 1 :=
      (div_le_one hCpos).mpr (by linarith)
    linarith

lemma hue0_green_range {k : RGBA8} (hC : Cd k ≠ 0) (hb : Mx k ≠ k.b)
    (hg : Mx k = k.g) : 1 ≤ hue0 k ∧ hue0 k < 3 := by
  have hCpos := Cd_pos_q hC
  have hblt : (k.b : ℚ) < (Mx k : ℚ) := by
    have h1 : k.b ≤ Mx k := (chan_le_Mx k).2.2
    have h2 : k.b ≠ Mx k := fun h => hb h.symm
    exact_mod_cast lt_of_le_of_ne h1 h2
  have hbge : (Mn k : ℚ) ≤ (k.b : ℚ) := by exact_mod_cast (Mn_le_chan k).2.2
  have hrle : (k.r : ℚ) ≤ (Mx k : ℚ) := by exact_mod_cast (chan_le_Mx k).1
  have hrge : (Mn k : ℚ) ≤ (k.r : ℚ) := by exact_mod_cast (Mn_le_chan k).1
  have hcd := cast_Cd k
  unfold hue0
  rw [if_neg hC, if_neg hb, if_pos hg]
  constructor
  · have : (-1 : ℚ) ≤ ((k.b : ℚ) - k.r) / (Cd k : ℚ) :=
      (le_div_iff₀ hCpos).mpr (by linarith)
    linarith
  · have : ((k.b : ℚ) - k.r) / (Cd k : ℚ) < 1 :=
      (div_lt_one hCpos).mpr (by linarith)
    linarith

lemma hue0_red_range {k : RGBA8} (hC : Cd k ≠ 0) (hb : Mx k ≠ k.b)
    (hg : Mx k ≠ k.g) : -1 < hue0 k ∧ hue0 k < 1 := by
  have hCpos := Cd_pos_q hC
  have hblt : (k.b : ℚ) < (Mx k : ℚ) := by
    have h1 : k.b ≤ Mx k := (chan_le_Mx k).2.2
    exact_mod_cast lt_of_le_of_ne h1 (fun h => hb h.symm)
  have hglt : (k.g : ℚ) < (Mx k : ℚ) := by
    have h1 : k.g ≤ Mx k := (chan_le_Mx k).2.1
    exact_mod_cast lt_of_le_of_ne h1 (fun h => hg h.symm)
  have hbge : (Mn k : ℚ) ≤ (k.b : ℚ) := by exact_mod_cast (Mn_le_chan k).2.2
  have hgge : (Mn k : ℚ) ≤ (k.g : ℚ) := by exact_mod_cast (Mn_le_chan k).2.1
  have hcd := cast_Cd k
  unfold hue0
  rw [if_neg hC, if_neg hb, if_neg hg]
  constructor
  · have : (-1 : ℚ) < ((k.g : ℚ) - k.b) / (Cd k : ℚ) :=
      (lt_div_iff₀ hCpos).mpr (by linarith)
    linarith
  · have : ((k.g : ℚ) - k.b) / (Cd k : ℚ) < 1 :=
      (div_lt_one hCpos).mpr (by linarith)
    linarith

lemma hue0_bounds (k : RGBA8) : -1 < hue0 k ∧ hue0 k ≤ 5 := by
  by_cases hC : Cd k = 0
  · unfold hue0
    rw [if_pos hC]
    norm_num
  · by_cases hb : Mx k = k.b
    · have := hue0_blue_range hC hb
      constructor <;> linarith [this.1, this.2]
    · by_cases hg : Mx k = k.g
      · have := hue0_green_range hC hb hg
        constructor <;> linarith [this.1, this.2]
      · have := hue0_red_range hC hb hg
        constructor <;> linarith [this.1, this.2]

lemma hueQ_inj_hue0 {k₁ k₂ : RGBA8} (h : hueQ k₁ = hueQ k₂) :
    hue0 k₁ = hue0 k₂ := by
  have b₁ := hue0_bounds k₁
  have b₂ := hue0_bounds k₂
  unfold hueQ at h
  split_ifs at h <;> linarith [b₁.1, b₁.2, b₂.1, b₂.2]

lemma small_denom_close_eq {z₁ z₂ : ℤ} {C₁ C₂ : ℕ}
    (hC₁ : 1 ≤ C₁) (hC₁' : C₁ ≤ 255) (hC₂ : 1 ≤ C₂) (hC₂' : C₂ ≤ 255)
    (h : |(z₁ : ℚ) / (C₁ : ℚ) - (z₂ : ℚ) / (C₂ : ℚ)| < EPSILON) :
    (z₁ : ℚ) / (C₁ : ℚ) = (z₂ : ℚ) / (C₂ : ℚ) := by
  by_contra hne
  have hq₁ : (0 : ℚ) < (C₁ : ℚ) := by exact_mod_cast hC₁
  have hq₂ : (0 : ℚ) < (C₂ : ℚ) := by exact_mod_cast hC₂
  have hdiff : (z₁ : ℚ) / (C₁ : ℚ) - (z₂ : ℚ) / (C₂ : ℚ)
      = ((z₁ * C₂ - z₂ * C₁ : ℤ) : ℚ) / ((C₁ : ℚ) * (C₂ : ℚ)) := by
    push_cast
    field_simp
    ring
  have hnum : (z₁ * C₂ - z₂ * C₁ : ℤ) ≠ 0 := by
    intro h0
    apply hne
    rw [div_eq_div_iff (ne_of_gt hq₁) (ne_of_gt hq₂)]
    have h0' : z₁ * (C₂ : ℤ) = z₂ * (C₁ : ℤ) := by omega
    exact_mod_cast h0'
  have h1 : (1 : ℚ) ≤ |((z₁ * C₂ - z₂ * C₁ : ℤ) : ℚ)| := by
    have hge := Int.one_le_abs hnum
    calc (1 : ℚ) ≤ ((|z₁ * C₂ - z₂ * C₁| : ℤ) : ℚ) := by exact_mod_cast hge
      _ = |((z₁ * C₂ - z₂ * C₁ : ℤ) : ℚ)| := by push_cast; rfl
  have habs : |(z₁ : ℚ) / (C₁ : ℚ) - (z₂ : ℚ) / (C₂ : ℚ)|
      = |((z₁ * C₂ - z₂ * C₁ : ℤ) : ℚ)| / ((C₁ : ℚ) * (C₂ : ℚ)) := by
    rw [hdiff, abs_div, abs_of_pos (mul_pos hq₁ hq₂)]
  rw [habs] at h
  unfold EPSILON at h
  rw [div_lt_iff₀ (mul_pos hq₁ hq₂)] at h
  have hd₁ : (C₁ : ℚ) ≤ 255 := by exact_mod_cast hC₁'
  have hd₂ : (C₂ : ℚ) ≤ 255 := by exact_mod_cast hC₂'
  nlinarith [h1, hd₁, hd₂, hq₁, hq₂]

lemma Cd_le_Mx (k : RGBA8) : Cd k ≤ Mx k := by
  unfold Cd
  omega

lemma hue0_repr (k : RGBA8) (hk : Mx k ≤ 255) :
    ∃ z : ℤ, ∃ C : ℕ, 1 ≤ C ∧ C ≤ 255 ∧ hue0 k = (z : ℚ) / (C : ℚ) := by
  by_cases hC : Cd k = 0
  · refine ⟨0, 1, le_refl 1, by norm_num, ?_⟩
    unfold hue0
    rw [if_pos hC]
    norm_num
  · have hC1 : 1 ≤ Cd k := Nat.pos_of_ne_zero hC
    have hC255 : Cd k ≤ 255 := le_trans (Cd_le_Mx k) hk
    have hCq : (Cd k : ℚ) ≠ 0 := Nat.cast_ne_zero.mpr hC
    by_cases hb : Mx k = k.b
    · refine ⟨(k.r : ℤ) - (k.g : ℤ) + 4 * (Cd k : ℤ), Cd k, hC1, hC255, ?_⟩
      unfold hue0
      rw [if_neg hC, if_pos hb]
      push_cast
      field_simp
      try ring
    · by_cases hg : Mx k = k.g
      · refine ⟨(k.b : ℤ) - (k.r : ℤ) + 2 * (Cd k : ℤ), Cd k, hC1, hC255, ?_⟩
        unfold hue0
        rw [if_neg hC, if_neg hb, if_pos hg]
        push_cast
        field_simp
        try ring
      · refine ⟨(k.g : ℤ) - (k.b : ℤ), Cd k, hC1, hC255, ?_⟩
        unfold hue0
        rw [if_neg hC, if_neg hb, if_neg hg]
        push_cast
        ring

lemma hueQ_repr (k : RGBA8) (hk : Mx k ≤ 255) :
    ∃ z : ℤ, ∃ C : ℕ, 1 ≤ C ∧ C ≤ 255 ∧ hueQ k = (z : ℚ) / (C : ℚ) := by
  obtain ⟨z, C, h1, h2, hz⟩ := hue0_repr k hk
  have hCq : (C : ℚ) ≠ 0 := Nat.cast_ne_zero.mpr (by omega)
  unfold hueQ
  split_ifs
  · refine ⟨60 * z + 360 * (C : ℤ), C, h1, h2, ?_⟩
    rw [hz]
    push_cast
    field_simp
    try ring
  · refine ⟨60 * z, C, h1, h2, ?_⟩
    rw [hz]
    push_cast
    field_simp
    try ring

lemma satQ_repr (k : RGBA8) (hk : Mx k ≤ 255) :
    ∃ z : ℤ, ∃ C : ℕ, 1 ≤ C ∧ C ≤ 255 ∧ satQ k = (z : ℚ) / (C : ℚ) := by
  by_cases hM : Mx k = 0
  · refine ⟨0, 1, le_refl 1, by norm_num, ?_⟩
    unfold satQ
    rw [if_pos hM]
    norm_num
  · refine ⟨(Cd k : ℤ), Mx k, Nat.pos_of_ne_zero hM, hk, ?_⟩
    unfold satQ
    rw [if_neg hM]
    push_cast
    ring

lemma floatEquals_true_iff_eq {q₁ q₂ : ℚ}
    (h₁ : ∃ z : ℤ, ∃ C : ℕ, 1 ≤ C ∧ C ≤ 255 ∧ q₁ = (z : ℚ) / (C : ℚ))
    (h₂ : ∃ z : ℤ, ∃ C : ℕ, 1 ≤ C ∧ C ≤ 255 ∧ q₂ = (z : ℚ) / (C : ℚ)) :
    (floatEquals q₁ q₂ = true) ↔ q₁ = q₂ := by
  constructor
  · intro h
    obtain ⟨z₁, C₁, a₁, b₁, e₁⟩ := h₁
    obtain ⟨z₂, C₂, a₂, b₂, e₂⟩ := h₂
    rw [e₁, e₂]
    rw [floatEquals_iff, e₁, e₂] at h
    exact small_denom_close_eq a₁ b₁ a₂ b₂ h
  · intro h
    rw [floatEquals_iff, h, sub_self, abs_zero]
    unfold EPSILON
    norm_num

lemma RGBA8_ext {k₁ k₂ : RGBA8} (hr : k₁.r = k₂.r) (hg : k₁.g = k₂.g)
    (hb : k₁.b = k₂.b) (ha : k₁.a = k₂.a) : k₁ = k₂ := by
  cases k₁
  cases k₂
  simp_all

set_option maxHeartbeats 1000000 in
lemma hsv_inj {k₁ k₂ : RGBA8} (g₁ : goodKey k₁) (g₂ : goodKey k₂)
    (hH : hueQ k₁ = hueQ k₂) (hS : satQ k₁ = satQ k₂)
    (hV : (Mx k₁ : ℚ) / 255 = (Mx k₂ : ℚ) / 255) : k₁ = k₂ := by
  have ha : k₁.a = k₂.a := by rw [g₁.2.2.2, g₂.2.2.2]
  have hM : Mx k₁ = Mx k₂ := by
    field_simp at hV
    exact_mod_cast hV
  have e₁ : Mx k₁ = max k₁.r (max k₁.g k₁.b) := rfl
  have e₂ : Mx k₂ = max k₂.r (max k₂.g k₂.b) := rfl
  have f₁ : Mn k₁ = min k₁.r (min k₁.g k₁.b) := rfl
  have f₂ : Mn k₂ = min k₂.r (min k₂.g k₂.b) := rfl
  have d₁ : Cd k₁ = Mx k₁ - Mn k₁ := rfl
  have d₂ : Cd k₂ = Mx k₂ - Mn k₂ := rfl
  have mle₁ := Mn_le_Mx k₁
  have mle₂ := Mn_le_Mx k₂
  by_cases hM0 : Mx k₁ = 0
  · refine RGBA8_ext ?_ ?_ ?_ ha <;> omega
  · have hM0' : Mx k₂ ≠ 0 := hM ▸ hM0
    have hC : Cd k₁ = Cd k₂ := by
      unfold satQ at hS
      rw [if_neg hM0, if_neg hM0', ← hM] at hS
      have := div_left_inj' (Nat.cast_ne_zero.mpr hM0) |>.mp hS
      exact_mod_cast this
    have hN : Mn k₁ = Mn k₂ := by omega
    by_cases hC0 : Cd k₁ = 0
    · refine RGBA8_ext ?_ ?_ ?_ ha <;> omega
    · have hC0' : Cd k₂ ≠ 0 := by omega
      have hCq : (Cd k₁ : ℚ) ≠ 0 := Nat.cast_ne_zero.mpr hC0
      have h0 : hue0 k₁ = hue0 k₂ := hueQ_inj_hue0 hH
      by_cases hb₁ : Mx k₁ = k₁.b
      · by_cases hb₂ : Mx k₂ = k₂.b
        · have hv₁ : hue0 k₁ = ((k₁.r : ℚ) - k₁.g) / (Cd k₁ : ℚ) + 4 := by
            unfold hue0
            rw [if_neg hC0, if_pos hb₁]
          have hv₂ : hue0 k₂ = ((k₂.r : ℚ) - k₂.g) / (Cd k₁ : ℚ) + 4 := by
            unfold hue0
            rw [if_neg hC0', if_pos hb₂, ← hC]
          rw [hv₁, hv₂] at h0
          have h0' : ((k₁.r : ℚ) - k₁.g) / (Cd k₁ : ℚ)
              = ((k₂.r : ℚ) - k₂.g) / (Cd k₁ : ℚ) := by linarith
          have hq : (k₁.r : ℚ) - k₁.g = (k₂.r : ℚ) - k₂.g :=
            (div_left_inj' hCq).mp h0'
          have hd : (k₁.r : ℤ) - k₁.g = (k₂.r : ℤ) - k₂.g := by exact_mod_cast hq
          refine RGBA8_ext ?_ ?_ ?_ ha <;> omega
        · exfalso
          have r₁ := hue0_blue_range hC0 hb₁
          by_cases hg₂ : Mx k₂ = k₂.g
          · have r₂ := hue0_green_range hC0' hb₂ hg₂
            linarith [r₁.1, r₂.2]
          · have r₂ := hue0_red_range hC0' hb₂ hg₂
            linarith [r₁.1, r₂.2]
      · by_cases hb₂ : Mx k₂ = k₂.b
        · exfalso
          have r₂ := hue0_blue_range hC0' hb₂
          by_cases hg₁ : Mx k₁ = k₁.g
          · have r₁ := hue0_green_range hC0 hb₁ hg₁
            linarith [r₁.2, r₂.1]
          · have r₁ := hue0_red_range hC0 hb₁ hg₁
            linarith [r₁.2, r₂.1]
        · by_cases hg₁ : Mx k₁ = k₁.g
          · by_cases hg₂ : Mx k₂ = k₂.g
            · have hv₁ : hue0 k₁ = ((k₁.b : ℚ) - k₁.r) / (Cd k₁ : ℚ) + 2 := by
                unfold hue0
                rw [if_neg hC0, if_neg hb₁, if_pos hg₁]
              have hv₂ : hue0 k₂ = ((k₂.b : ℚ) - k₂.r) / (Cd k₁ : ℚ) + 2 := by
                unfold hue0
                rw [if_neg hC0', if_neg hb₂, if_pos hg₂, ← hC]
              rw [hv₁, hv₂] at h0
              have h0' : ((k₁.b : ℚ) - k₁.r) / (Cd k₁ : ℚ)
                  = ((k₂.b : ℚ) - k₂.r) / (Cd k₁ : ℚ) := by linarith
              have hq : (k₁.b : ℚ) - k₁.r = (k₂.b : ℚ) - k₂.r :=
                (div_left_inj' hCq).mp h0'
              have hd : (k₁.b : ℤ) - k₁.r = (k₂.b : ℤ) - k₂.r := by exact_mod_cast hq
              refine RGBA8_ext ?_ ?_ ?_ ha <;> omega
            · exfalso
              have r₁ := hue0_green_range hC0 hb₁ hg₁
              have r₂ := hue0_red_range hC0' hb₂ hg₂
              linarith [r₁.1, r₂.2]
          · by_cases hg₂ : Mx k₂ = k₂.g
            · exfalso
              have r₁ := hue0_red_range hC0 hb₁ hg₁
              have r₂ := hue0_green_range hC0' hb₂ hg₂
              linarith [r₁.2, r₂.1]
            · have hv₁ : hue0 k₁ = ((k₁.g : ℚ) - k₁.b) / (Cd k₁ : ℚ) := by
                unfold hue0
                rw [if_neg hC0, if_neg hb₁, if_neg hg₁]
              have hv₂ : hue0 k₂ = ((k₂.g : ℚ) - k₂.b) / (Cd k₁ : ℚ) := by
                unfold hue0
                rw [if_neg hC0', if_neg hb₂, if_neg hg₂, ← hC]
              rw [hv₁, hv₂] at h0
              have hq : (k₁.g : ℚ) - k₁.b = (k₂.g : ℚ) - k₂.b :=
                (div_left_inj' hCq).mp h0
              have hd : (k₁.g : ℤ) - k₁.b = (k₂.g : ℤ) - k₂.b := by exact_mod_cast hq
              refine RGBA8_ext ?_ ?_ ?_ ha <;> omega

lemma Mx_le_255 {k : RGBA8} (hk : goodKey k) : Mx k ≤ 255 := by
  obtain ⟨h1, h2, h3, _⟩ := hk
  unfold Mx
  omega

lemma lexLt_trans {p q r : ℚ × ℚ × ℚ} (h₁ : lexLt p q) (h₂ : lexLt q r) :
    lexLt p r := by
  unfold lexLt at h₁ h₂ ⊢
  rcases h₁ with h1 | ⟨e1, h1⟩ <;> rcases h₂ with h2 | ⟨e2, h2⟩
  · left; linarith
  · left; linarith [e2 ▸ h1]
  · left; linarith [e1 ▸ h2]
  · right
    refine ⟨e1.trans e2, ?_⟩
    rcases h1 with s1 | ⟨t1, s1⟩ <;> rcases h2 with s2 | ⟨t2, s2⟩
    · left; linarith
    · left; linarith [t2 ▸ s1]
    · left; linarith [t1 ▸ s2]
    · right; exact ⟨t1.trans t2, lt_trans s1 s2⟩

lemma lexLt_antisym {p q : ℚ × ℚ × ℚ} (h₁ : ¬ lexLt p q) (h₂ : ¬ lexLt q p) :
    p.1 = q.1 ∧ p.2.1 = q.2.1 ∧ p.2.2 = q.2.2 := by
  unfold lexLt at h₁ h₂
  have e1 : p.1 = q.1 := by
    rcases lt_trichotomy p.1 q.1 with h | h | h
    · exact absurd (Or.inl h) h₁
    · exact h
    · exact absurd (Or.inl h) h₂
  have e2 : p.2.1 = q.2.1 := by
    rcases lt_trichotomy p.2.1 q.2.1 with h | h | h
    · exact absurd (Or.inr ⟨e1, Or.inl h⟩) h₁
    · exact h
    · exact absurd (Or.inr ⟨e1.symm, Or.inl h⟩) h₂
  have e3 : p.2.2 = q.2.2 := by
    rcases lt_trichotomy p.2.2 q.2.2 with h | h | h
    · exact absurd (Or.inr ⟨e1, Or.inr ⟨e2, h⟩⟩) h₁
    · exact h
    · exact absurd (Or.inr ⟨e1.symm, Or.inr ⟨e2.symm, h⟩⟩) h₂
  exact ⟨e1, e2, e3⟩

lemma keyEntry_fields (k : RGBA8) :
    (keyEntry k).H = hueQ k ∧ (keyEntry k).S = satQ k ∧
      (keyEntry k).V = (Mx k : ℚ) / 255 := by
  unfold keyEntry
  rw [hsvOfKey_eq]
  exact ⟨rfl, rfl, rfl⟩

lemma hsv_comp (k : RGBA8) :
    (hsvOfKey k).1 = hueQ k ∧ (hsvOfKey k).2.1 = satQ k ∧
      (hsvOfKey k).2.2 = (Mx k : ℚ) / 255 := by
  rw [hsvOfKey_eq]
  exact ⟨rfl, rfl, rfl⟩

lemma lessc_keyEntry_iff {k₁ k₂ : RGBA8} (g₁ : goodKey k₁) (g₂ : goodKey k₂) :
    lessc (keyEntry k₁) (keyEntry k₂) = true ↔
      lexLt (hsvOfKey k₁) (hsvOfKey k₂) := by
  have hf₁ := keyEntry_fields k₁
  have hf₂ := keyEntry_fields k₂
  have hc₁ := hsv_comp k₁
  have hc₂ := hsv_comp k₂
  have hH : floatEquals (hueQ k₁) (hueQ k₂) = true ↔ hueQ k₁ = hueQ k₂ :=
    floatEquals_true_iff_eq (hueQ_repr k₁ (Mx_le_255 g₁)) (hueQ_repr k₂ (Mx_le_255 g₂))
  have hS : floatEquals (satQ k₁) (satQ k₂) = true ↔ satQ k₁ = satQ k₂ :=
    floatEquals_true_iff_eq (satQ_repr k₁ (Mx_le_255 g₁)) (satQ_repr k₂ (Mx_le_255 g₂))
  unfold lessc lexLt
  rw [hf₁.1, hf₂.1, hf₁.2.1, hf₂.2.1, hf₁.2.2, hf₂.2.2,
    hc₁.1, hc₂.1, hc₁.2.1, hc₂.2.1, hc₁.2.2, hc₂.2.2]
  by_cases hHeq : hueQ k₁ = hueQ k₂
  · rw [if_pos (hH.mpr hHeq)]
    by_cases hSeq : satQ k₁ = satQ k₂
    · rw [if_pos (hS.mpr hSeq)]
      simp only [decide_eq_true_eq]
      constructor
      · intro hv
        exact Or.inr ⟨hHeq, Or.inr ⟨hSeq, hv⟩⟩
      · rintro (h | ⟨_, h | ⟨_, hv⟩⟩)
        · exact absurd h (by rw [hHeq]; exact lt_irrefl _)
        · exact absurd h (by rw [hSeq]; exact lt_irrefl _)
        · exact hv
    · rw [if_neg (fun hx => hSeq (hS.mp hx))]
      simp only [decide_eq_true_eq]
      constructor
      · intro hs
        exact Or.inr ⟨hHeq, Or.inl hs⟩
      · rintro (h | ⟨_, h | ⟨he, _⟩⟩)
        · exact absurd h (by rw [hHeq]; exact lt_irrefl _)
        · exact h
        · exact absurd he hSeq
  · rw [if_neg (fun hx => hHeq (hH.mp hx))]
    simp only [decide_eq_true_eq]
    constructor
    · intro hh
      exact Or.inl hh
    · rintro (h | ⟨he, _⟩)
      · exact h
      · exact absurd he hHeq

lemma mem_foldl_dedup {x : RGBA8} :
    ∀ (l : List RGBA8) (acc : List RGBA8),
      x ∈ l.foldl (fun acc k => if k ∈ acc then acc else acc ++ [k]) acc →
      x ∈ acc ∨ x ∈ l := by
  intro l
  induction l with
  | nil =>
    intro acc h
    exact Or.inl h
  | cons k l ih =>
    intro acc h
    simp only [List.foldl_cons] at h
    rcases ih _ h with h' | h'
    · by_cases hk : k ∈ acc
      · rw [if_pos hk] at h'
        exact Or.inl h'
      · rw [if_neg hk] at h'
        rcases List.mem_append.mp h' with h'' | h''
        · exact Or.inl h''
        · simp only [List.mem_singleton] at h''
          subst h''
          exact Or.inr (List.mem_cons_self _ _)
    · exact Or.inr (List.mem_cons_of_mem k h')

lemma distinctKeys_subset {img : SpriteImage} {x : RGBA8}
    (h : x ∈ distinctKeys img) : x ∈ pixelKeys img := by
  unfold distinctKeys at h
  rcases mem_foldl_dedup _ [] h with h' | h'
  · simp at h'
  · exact h'

lemma scale8_le {v : ℕ} (hv : v ≤ 65535) : scale8 v ≤ 255 := by
  unfold scale8
  omega

lemma pixelKeys_good {img : SpriteImage}
    (hr : ∀ x y : ℤ, sampleInRange (img.pix x y)) :
    ∀ k ∈ pixelKeys img, goodKey k := by
  intro k hk
  unfold pixelKeys at hk
  simp only [List.mem_flatMap, List.mem_map, List.mem_range] at hk
  obtain ⟨y, _, x, _, rfl⟩ := hk
  obtain ⟨h1, h2, h3, _⟩ := hr (img.minX + x) (img.minY + y)
  exact ⟨scale8_le h1, scale8_le h2, scale8_le h3, rfl⟩

lemma lessc_stripIndex (a b : UniqueColour) :
    lessc (stripIndex a) (stripIndex b) = lessc a b := rfl

lemma insertSorted_map_stripIndex (x : UniqueColour) (l : List UniqueColour) :
    (insertSorted x l).map stripIndex
      = insertSorted (stripIndex x) (l.map stripIndex) := by
  induction l with
  | nil => rfl
  | cons y ys ih =>
    by_cases h : lessc y x
    · simp only [insertSorted, List.map_cons, lessc_stripIndex, if_pos h, ih]
    · simp only [insertSorted, List.map_cons, lessc_stripIndex, if_neg h]

lemma sortColours_map_stripIndex (l : List UniqueColour) :
    (sortColours l).map stripIndex = sortColours (l.map stripIndex) := by
  induction l with
  | nil => rfl
  | cons x xs ih =>
    simp only [sortColours, List.map_cons, insertSorted_map_stripIndex, ih]

lemma stripIndex_entriesOf (ks : List RGBA8) :
    (entriesOf ks).map stripIndex = ks.map keyEntry := by
  unfold entriesOf
  rw [List.map_map]
  rw [show (stripIndex ∘ fun p : ℕ × RGBA8 =>
      (⟨p.2, (hsvOfKey p.2).1, (hsvOfKey p.2).2.1, (hsvOfKey p.2).2.2, p.1⟩
        : UniqueColour)) = (keyEntry ∘ Prod.snd) from rfl]
  rw [← List.map_map, List.enum_map_snd]

lemma map_RGBA_stripIndex (l : List UniqueColour) :
    (l.map stripIndex).map (fun e => e.RGBA) = l.map (fun e => e.RGBA) := by
  rw [List.map_map]
  rfl

lemma sortColours_keyEntry_eq {ds ks₁ ks₂ : List RGBA8}
    (hgood : ∀ k ∈ ds, goodKey k)
    (h₁ : ks₁.Perm ds) (h₂ : ks₂.Perm ds) :
    sortColours (ks₁.map keyEntry) = sortColours (ks₂.map keyEntry) := by
  have hmem : ∀ {ks : List RGBA8}, ks.Perm ds →
      ∀ a ∈ ks.map keyEntry, ∃ k, goodKey k ∧ a = keyEntry k := by
    intro ks hp a ha
    obtain ⟨k, hk, rfl⟩ := List.mem_map.mp ha
    exact ⟨k, hgood k (hp.subset hk), rfl⟩
  refine (sortColours_eq_of_strict_total _ _ ((h₁.trans h₂.symm).map keyEntry)
    ?_ ?_).1
  · intro a ha b hb c hc hab hbc
    obtain ⟨ka, gka, rfl⟩ := hmem h₁ a ha
    obtain ⟨kb, gkb, rfl⟩ := hmem h₁ b hb
    obtain ⟨kc, gkc, rfl⟩ := hmem h₁ c hc
    rw [lessc_keyEntry_iff gka gkb] at hab
    rw [lessc_keyEntry_iff gkb gkc] at hbc
    rw [lessc_keyEntry_iff gka gkc]
    exact lexLt_trans hab hbc
  · intro a ha b hb hab hba
    obtain ⟨ka, gka, rfl⟩ := hmem h₁ a ha
    obtain ⟨kb, gkb, rfl⟩ := hmem h₁ b hb
    have hab' : ¬ lexLt (hsvOfKey ka) (hsvOfKey kb) := by
      rw [← lessc_keyEntry_iff gka gkb, hab]
      simp
    have hba' : ¬ lexLt (hsvOfKey kb) (hsvOfKey ka) := by
      rw [← lessc_keyEntry_iff gkb gka, hba]
      simp
    obtain ⟨e1, e2, e3⟩ := lexLt_antisym hab' hba'
    have hca := hsv_comp ka
    have hcb := hsv_comp kb
    have hk : ka = kb := by
      refine hsv_inj gka gkb ?_ ?_ ?_
      · rw [← hca.1, ← hcb.1]
        exact e1
      · rw [← hca.2.1, ← hcb.2.1]
        exact e2
      · rw [← hca.2.2, ← hcb.2.2]
        exact e3
    rw [hk]

/-- Claim C9: for a fixed image whose samples obey Go's `color.Color.RGBA()`
range contract (channels in `[0, 65535]`, automatic in Go and stated here
because the model uses unbounded naturals), the final ordered palette is
independent of the order in which the unique colours were inserted into or
enumerated from the colour map: any two enumeration orders of the key set
given to the provisional-index-then-sort step produce identical ordered
palette sequences.  Distinct canonical keys of an image can never tie
within the comparator's epsilon — hue and saturation are ratios of integers
with denominators at most 255, so distinct values differ by at least
`1/65025 ≫ 1e-8` — and HSV determines the key, so the comparator is a
strict total order on every real catalog.  The second conjunct records that
the pipeline's own catalog is the canonical enumeration instance. -/
theorem palette_independent_of_enumeration_order
    (img : SpriteImage) (ks₁ ks₂ : List RGBA8)
    (hrange : ∀ x y : ℤ, sampleInRange (img.pix x y))
    (h₁ : ks₁.Perm (distinctKeys img)) (h₂ : ks₂.Perm (distinctKeys img)) :
    (sortColours (entriesOf ks₁)).map (fun e => e.RGBA)
      = (sortColours (entriesOf ks₂)).map (fun e => e.RGBA) ∧
    buildEntries img = entriesOf (distinctKeys img) := by
  constructor
  · have hgood : ∀ k ∈ distinctKeys img, goodKey k :=
      fun k hk => pixelKeys_good hrange k (distinctKeys_subset hk)
    have hmain := sortColours_keyEntry_eq hgood h₁ h₂
    calc (sortColours (entriesOf ks₁)).map (fun e => e.RGBA)
        = ((sortColours (entriesOf ks₁)).map stripIndex).map (fun e => e.RGBA) :=
          (map_RGBA_stripIndex _).symm
      _ = (sortColours ((entriesOf ks₁).map stripIndex)).map (fun e => e.RGBA) := by
          rw [sortColours_map_stripIndex]
      _ = (sortColours (ks₁.map keyEntry)).map (fun e => e.RGBA) := by
          rw [stripIndex_entriesOf]
      _ = (sortColours (ks₂.map keyEntry)).map (fun e => e.RGBA) := by
          rw [hmain]
      _ = (sortColours ((entriesOf ks₂).map stripIndex)).map (fun e => e.RGBA) := by
          rw [stripIndex_entriesOf]
      _ = ((sortColours (entriesOf ks₂)).map stripIndex).map (fun e => e.RGBA) := by
          rw [sortColours_map_stripIndex]
      _ = (sortColours (entriesOf ks₂)).map (fun e => e.RGBA) :=
          map_RGBA_stripIndex _
  · rfl

/-- Witness for the C9 theorem: the two enumeration orders of the
two-colour image's key set produce the same palette. -/
theorem palette_independent_of_enumeration_order_witness :
    (sortColours (entriesOf [⟨0, 0, 255, 255⟩, ⟨255, 0, 0, 255⟩])).map (fun e => e.RGBA)
      = (sortColours (entriesOf [⟨255, 0, 0, 255⟩, ⟨0, 0, 255, 255⟩])).map
          (fun e => e.RGBA) := by
  have hdk : distinctKeys imgRedBlue = [⟨255, 0, 0, 255⟩, ⟨0, 0, 255, 255⟩] := by
    decide
  refine (palette_independent_of_enumeration_order imgRedBlue
    [⟨0, 0, 255, 255⟩, ⟨255, 0, 0, 255⟩] [⟨255, 0, 0, 255⟩, ⟨0, 0, 255, 255⟩]
    ?_ ?_ ?_).1
  · intro x y
    by_cases hx : x = 0 <;>
      simp [imgRedBlue, nrgbaSample, sampleInRange, hx]
  · rw [hdk]
    exact List.Perm.swap _ _ _
  · rw [hdk]
